import Mathlib

/-!
Verification development for the civil-supplies dashboard (src/app.py).

The two pieces of engine logic are shallow-embedded here:

* `safe_numeric` (app.py lines 40-46): numeric coercion of a raw cell
  value, stripping commas and coercing parse failures to a missing value
  (pandas `pd.to_numeric(series.astype(str).str.replace(",", ""),
  errors="coerce")`).
* the AI-Insights aggregation and z-score outlier flagging
  (app.py lines 448-466): select the dimension and measure columns,
  coerce the measure, group by the dimension (pandas drops rows whose
  group key is the missing marker), sum each group (pandas `sum`
  skips missing values and yields 0 for an all-missing group), then
  derive a z-score per group with population standard deviation
  (`ddof=0`) and divisor 1 when the standard deviation is zero.

Numbers are modelled exactly (rationals for cell values and sums, reals
for the square root inside the standard deviation); Python float
rounding is outside the model.  Infinity literals accepted by pandas
(for example "inf") are outside the model as well: no claim touches
them, and the model maps them to the missing value.
-/

namespace CivilSupplies

set_option maxRecDepth 200000

/-- A raw cell of a Record Table: a string, a number, or the missing
marker (pandas NaN). -/
inductive RawVal where
  | str (s : String)
  | num (q : ℚ)
  | missing
  deriving DecidableEq, Repr

/-- Whitespace characters trimmed by the numeric parser (the same set
the Python float parser skips around a numeral). -/
def isSpaceCh (c : Char) : Bool :=
  c = ' ' || c = '\t' || c = '\n' || c = '\r' || c = '\x0b' || c = '\x0c'

/-- Remove leading and trailing whitespace from a character list. -/
def trimChars (l : List Char) : List Char :=
  ((l.dropWhile isSpaceCh).reverse.dropWhile isSpaceCh).reverse

/-- Value of a list of decimal digit characters, most significant first. -/
def digitsVal (l : List Char) : ℕ :=
  l.foldl (fun a c => 10 * a + (c.toNat - '0'.toNat)) 0

/-- Exponent tail of a numeral: optional sign then a nonempty digit run,
with nothing after it. -/
def parseExpTail (base : ℚ) (l : List Char) : Option ℚ :=
  let sg : ℤ := if l.head? = some '-' then -1 else 1
  let r : List Char :=
    if l.head? = some '+' || l.head? = some '-' then l.tail else l
  let ds := r.takeWhile Char.isDigit
  if ds.isEmpty then none
  else if (r.dropWhile Char.isDigit).isEmpty then
    some (base * (10 : ℚ) ^ (sg * (digitsVal ds : ℤ)))
  else none

/-- After the exponent marker position: end of input yields the mantissa
value, an `e`/`E` starts an exponent tail, anything else fails. -/
def parseExpPart (base : ℚ) (rest : List Char) : Option ℚ :=
  if rest.isEmpty then some base
  else if rest.head? = some 'e' || rest.head? = some 'E' then
    parseExpTail base rest.tail
  else none

/-- After the integer-part digits: an optional fractional part, then the
exponent position.  At least one digit must occur in the mantissa. -/
def parseAfterInt (sgn : ℚ) (ip rest : List Char) : Option ℚ :=
  if rest.head? = some '.' then
    let fp := rest.tail.takeWhile Char.isDigit
    if ip.isEmpty && fp.isEmpty then none
    else
      parseExpPart (sgn * ((digitsVal (ip ++ fp) : ℚ) / (10 : ℚ) ^ fp.length))
        (rest.tail.dropWhile Char.isDigit)
  else if ip.isEmpty then none
  else parseExpPart (sgn * (digitsVal ip : ℚ)) rest

/-- Mantissa of a numeral (input already trimmed and sign-stripped). -/
def parseMantissa (sgn : ℚ) (l : List Char) : Option ℚ :=
  parseAfterInt sgn (l.takeWhile Char.isDigit) (l.dropWhile Char.isDigit)

/-- Optional leading sign of a numeral. -/
def parseSigned (l : List Char) : Option ℚ :=
  if l.head? = some '+' then parseMantissa 1 l.tail
  else if l.head? = some '-' then parseMantissa (-1) l.tail
  else parseMantissa 1 l

/-- The textual NaN spellings recognised by the pandas numeric
conversion ("nan" in any letter case); they coerce to NaN, which the
model identifies with the missing value. -/
def isNanCore (l : List Char) : Bool :=
  match l with
  | [c1, c2, c3] =>
    (c1 = 'n' || c1 = 'N') && (c2 = 'a' || c2 = 'A') && (c3 = 'n' || c3 = 'N')
  | _ => false

/-- Model of `pd.to_numeric(·, errors="coerce")` on one string: trim whitespace,
recognise NaN text as missing, otherwise parse a signed decimal numeral
with optional fraction and exponent; any failure coerces to missing. -/
def parseNumChars (l : List Char) : Option ℚ :=
  let t := trimChars l
  if isNanCore t then none else parseSigned t

/-- String form of the coercing numeric parse. -/
def parseNumeric (s : String) : Option ℚ :=
  parseNumChars s.toList

/-- Model of `str.replace(",", "", regex=False)`: remove every comma, at any
position. -/
def stripCommas (s : String) : String :=
  ⟨s.toList.filter (fun c => c ≠ ',')⟩

/-- One cell through `safe_numeric` (app.py lines 40-46):
`astype(str)` turns the missing marker into the text "nan" (which
coerces back to missing) and a number into its decimal text (which
coerces back to the same number); a string has its commas stripped and
is then parsed with failures coerced to missing. -/
def safeNumericCell : RawVal → Option ℚ
  | RawVal.str s => parseNumeric (stripCommas s)
  | RawVal.num q => some q
  | RawVal.missing => none

/-- A value that is empty or whitespace-only. -/
def isBlankOrWs (s : String) : Bool :=
  s.toList.all isSpaceCh

/-- A textual NaN-equivalent: "nan" in any letter case, optionally
surrounded by whitespace. -/
def isNanText (s : String) : Bool :=
  isNanCore (trimChars s.toList)

/-- A Record Table: a header of column names and an ordered sequence of
rows of raw values (row cells are positional, matching the header). -/
structure Table where
  header : List String
  rows : List (List RawVal)

/-- Cell of a row at a column position; positions outside the row read
as the missing marker. -/
def getCell (r : List RawVal) (i : ℕ) : RawVal :=
  r.getD i RawVal.missing

/-- Position of a column name in the header. -/
def colIdx (t : Table) (c : String) : ℕ :=
  t.header.indexOf c

/-- Model of `df_ai[[dim_col_ai, val_col_ai]]` followed by
`tmp[val] = safe_numeric(tmp[val])` (app.py lines 449-450): each row
becomes its dimension cell paired with its coerced measure cell.
The model assumes the two column names are distinct: selecting the
same column twice gives a duplicate-column frame whose `tmp[val]` is a
DataFrame, on which `safe_numeric` raises AttributeError — that crash
is outside the model, so every aggregation theorem carries a
distinct-columns hypothesis. -/
def selectPairs (t : Table) (dim val : String) : List (RawVal × Option ℚ) :=
  t.rows.map fun r =>
    (getCell r (colIdx t dim), safeNumericCell (getCell r (colIdx t val)))

/-- First-occurrence deduplication, skipping keys already seen. -/
def firstDedupAux (seen : List RawVal) : List RawVal → List RawVal
  | [] => []
  | a :: l =>
    if a ∈ seen then firstDedupAux seen l
    else a :: firstDedupAux (a :: seen) l

/-- Distinct elements of a list in order of first appearance. -/
def firstDedup (l : List RawVal) : List RawVal :=
  firstDedupAux [] l

/-- Group keys of `groupby(dim_col_ai)`: the distinct dimension values,
with the missing marker dropped (pandas `groupby` drops NaN keys). -/
def groupKeys (ps : List (RawVal × Option ℚ)) : List RawVal :=
  firstDedup ((ps.map Prod.fst).filter fun k => k ≠ RawVal.missing)

/-- pandas `sum` over a column of optional values: missing entries are
skipped, and a list with no value at all sums to 0. -/
def sumCoerced : List (Option ℚ) → ℚ
  | [] => 0
  | none :: l => sumCoerced l
  | some q :: l => q + sumCoerced l

/-- Sum of the coerced measure over the rows of one group key. -/
def groupSum (ps : List (RawVal × Option ℚ)) (k : RawVal) : ℚ :=
  sumCoerced ((ps.filter fun p => p.1 = k).map Prod.snd)

/-- Model of `tmp.groupby(dim_col_ai)[val_col_ai].sum().reset_index().dropna()`
(app.py line 451): one entry per distinct non-missing dimension value,
carrying that group's sum.  The `dropna` drops nothing: keys are
non-missing by the grouping and pandas group sums are never NaN. -/
def aggregate (t : Table) (dim val : String) : List (RawVal × ℚ) :=
  (groupKeys (selectPairs t dim val)).map fun k =>
    (k, groupSum (selectPairs t dim val) k)

deriving instance DecidableEq for Except

/-- Error raised by the column selection `df_ai[[dim_col_ai, val_col_ai]]`
when a requested name is not in the header (pandas `KeyError`). -/
inductive AggError where
  | unknownColumn
  deriving DecidableEq, Repr

/-- What the AI-Insights tab reports: either the "No numeric data
available after cleaning" notice, or the aggregated groups. -/
inductive Outcome where
  | noNumericData
  | insight (groups : List (RawVal × ℚ))
  deriving DecidableEq, Repr

/-- The aggregation entry point: column selection fails on an unknown
column name, otherwise the grouped sums are produced.  Faithful for
distinct column names; the duplicate-selection crash of `selectPairs`
at equal names is outside the model, so theorems about the success
path assume the dimension and measure columns are distinct. -/
def aiInsight (t : Table) (dim val : String) : Except AggError (List (RawVal × ℚ)) :=
  if dim ∈ t.header ∧ val ∈ t.header then Except.ok (aggregate t dim val)
  else Except.error AggError.unknownColumn

/-- The `agg.empty` check (app.py line 453): an empty aggregation is
reported as the no-numeric-data notice, anything else as an insight. -/
def insightOutcome (t : Table) (dim val : String) : Except AggError Outcome :=
  (aiInsight t dim val).map fun g =>
    if g = [] then Outcome.noNumericData else Outcome.insight g

/-- Mean of a list of rationals (`values.mean()`). -/
def meanQ (l : List ℚ) : ℚ :=
  l.sum / l.length

/-- Population variance (`ddof=0`) of a list of rationals. -/
def varQ (l : List ℚ) : ℚ :=
  (l.map fun x => (x - meanQ l) ^ 2).sum / l.length

/-- Model of `values.std(ddof=0)`: the population standard deviation, the square
root of the population variance. -/
noncomputable def stdR (l : List ℚ) : ℝ :=
  Real.sqrt ((varQ l : ℚ) : ℝ)

/-- Model of `(agg[val_col_ai] - mean_val) / (std_val if std_val else 1)`
(app.py line 462): the z-score of one value against the list of group
sums, with divisor 1 when the standard deviation is zero. -/
noncomputable def zScore (l : List ℚ) (x : ℚ) : ℝ :=
  ((x - meanQ l : ℚ) : ℝ) / (if stdR l = 0 then 1 else stdR l)

/-- The list of group sums of an aggregation result. -/
def aggSums (g : List (RawVal × ℚ)) : List ℚ :=
  g.map Prod.snd

/-- z-score of one aggregation entry against the whole result. -/
noncomputable def entryZ (g : List (RawVal × ℚ)) (e : RawVal × ℚ) : ℝ :=
  zScore (aggSums g) e.2

/-- Membership in `high_anom = agg[agg["z_score"] > 2]` (app.py line 465). -/
def isHighAnom (g : List (RawVal × ℚ)) (e : RawVal × ℚ) : Prop :=
  entryZ g e > 2

/-- Membership in `low_anom = agg[agg["z_score"] < -2]` (app.py line 466). -/
def isLowAnom (g : List (RawVal × ℚ)) (e : RawVal × ℚ) : Prop :=
  entryZ g e < -2

/-- Total of the coerced measure over a list of (dimension, measure)
pairs. -/
def pairsTotal (ps : List (RawVal × Option ℚ)) : ℚ :=
  sumCoerced (ps.map Prod.snd)

/-- Spec-side definition, following the claim's words: the sum of all
coercible measure values in the table, over every row. -/
def specCoercibleTotal (t : Table) (val : String) : ℚ :=
  sumCoerced (t.rows.map fun r => safeNumericCell (getCell r (colIdx t val)))

/-- The sum of coercible measure values over the rows whose dimension
cell is present (not the missing marker). -/
def presentDimTotal (t : Table) (dim val : String) : ℚ :=
  sumCoerced ((t.rows.filter fun r => getCell r (colIdx t dim) ≠ RawVal.missing).map
    fun r => safeNumericCell (getCell r (colIdx t val)))

/-! ### Concrete tables used to evaluate the development -/

/-- Three districts with the same count (the zero-variance example). -/
def exampleUniform : Table :=
  ⟨["district", "count"],
   [[RawVal.str "A", RawVal.num 10],
    [RawVal.str "B", RawVal.num 10],
    [RawVal.str "C", RawVal.num 10]]⟩

/-- The aggregation result of `exampleUniform`. -/
def uniformAgg : List (RawVal × ℚ) :=
  [(RawVal.str "A", 10), (RawVal.str "B", 10), (RawVal.str "C", 10)]

/-- Three districts at 1 and one district at 100 (the outlier example). -/
def exampleOutlier : Table :=
  ⟨["district", "count"],
   [[RawVal.str "A", RawVal.num 1],
    [RawVal.str "B", RawVal.num 1],
    [RawVal.str "C", RawVal.num 1],
    [RawVal.str "D", RawVal.num 100]]⟩

/-- The aggregation result of `exampleOutlier`. -/
def outlierAgg : List (RawVal × ℚ) :=
  [(RawVal.str "A", 1), (RawVal.str "B", 1), (RawVal.str "C", 1),
   (RawVal.str "D", 100)]

/-- One row with a missing dimension cell but a coercible measure. -/
def exampleMissingDim : Table :=
  ⟨["district", "count"], [[RawVal.missing, RawVal.str "5"]]⟩

/-- One row whose measure cell is not coercible to a number. -/
def exampleNoNumeric : Table :=
  ⟨["district", "count"], [[RawVal.str "A", RawVal.str "x"]]⟩

/-- A table with a header but no rows. -/
def exampleEmpty : Table :=
  ⟨["district", "count"], ([] : List (List RawVal))⟩

/-! ### Basic lemmas about the aggregation building blocks -/

theorem mem_firstDedupAux {x : RawVal} :
    ∀ (seen l : List RawVal), x ∈ firstDedupAux seen l ↔ x ∈ l ∧ x ∉ seen := by
  intro seen l
  induction l generalizing seen with
  | nil => simp [firstDedupAux]
  | cons a l ih =>
    by_cases ha : a ∈ seen
    · simp only [firstDedupAux, if_pos ha, ih, List.mem_cons]
      constructor
      · rintro ⟨hx, hs⟩
        exact ⟨Or.inr hx, hs⟩
      · rintro ⟨hx | hx, hs⟩
        · exact absurd (hx ▸ ha) hs
        · exact ⟨hx, hs⟩
    · simp only [firstDedupAux, if_neg ha, List.mem_cons, ih, List.mem_cons]
      constructor
      · rintro (rfl | ⟨hx, hs⟩)
        · exact ⟨Or.inl rfl, ha⟩
        · exact ⟨Or.inr hx, fun h => hs (Or.inr h)⟩
      · rintro ⟨rfl | hx, hs⟩
        · exact Or.inl rfl
        · by_cases hxa : x = a
          · exact Or.inl hxa
          · exact Or.inr ⟨hx, fun h => by
              rcases h with h | h
              · exact hxa h
              · exact hs h⟩

theorem nodup_firstDedupAux :
    ∀ (seen l : List RawVal), (firstDedupAux seen l).Nodup := by
  intro seen l
  induction l generalizing seen with
  | nil => simp [firstDedupAux]
  | cons a l ih =>
    by_cases ha : a ∈ seen
    · simpa [firstDedupAux, if_pos ha] using ih seen
    · simp only [firstDedupAux, if_neg ha]
      refine List.Nodup.cons ?_ (ih (a :: seen))
      intro hmem
      exact ((mem_firstDedupAux (a :: seen) l).1 hmem).2 (List.mem_cons_self a seen)

theorem mem_firstDedup {x : RawVal} {l : List RawVal} :
    x ∈ firstDedup l ↔ x ∈ l := by
  simp [firstDedup, mem_firstDedupAux]

theorem nodup_firstDedup (l : List RawVal) : (firstDedup l).Nodup :=
  nodup_firstDedupAux [] l

theorem mem_groupKeys {k : RawVal} {ps : List (RawVal × Option ℚ)} :
    k ∈ groupKeys ps ↔ k ≠ RawVal.missing ∧ k ∈ ps.map Prod.fst := by
  simp [groupKeys, mem_firstDedup, List.mem_filter, and_comm]

theorem nodup_groupKeys (ps : List (RawVal × Option ℚ)) :
    (groupKeys ps).Nodup :=
  nodup_firstDedup _

theorem sumCoerced_cons (o : Option ℚ) (l : List (Option ℚ)) :
    sumCoerced (o :: l) = o.getD 0 + sumCoerced l := by
  cases o <;> simp [sumCoerced]

theorem pairsTotal_nil : pairsTotal [] = 0 := rfl

theorem pairsTotal_cons (p : RawVal × Option ℚ) (ps : List (RawVal × Option ℚ)) :
    pairsTotal (p :: ps) = p.2.getD 0 + pairsTotal ps := by
  simp [pairsTotal, sumCoerced_cons]

theorem pairsTotal_filter_split (q : RawVal × Option ℚ → Bool)
    (ps : List (RawVal × Option ℚ)) :
    pairsTotal (ps.filter q) + pairsTotal (ps.filter fun x => !(q x)) = pairsTotal ps := by
  induction ps with
  | nil => simp [pairsTotal_nil]
  | cons p ps ih =>
    by_cases hq : q p
    · have h1 : (p :: ps).filter q = p :: ps.filter q := by
        simp [List.filter_cons, hq]
      have h2 : ((p :: ps).filter fun x => !(q x)) = ps.filter fun x => !(q x) := by
        simp [List.filter_cons, hq]
      rw [h1, h2, pairsTotal_cons p (ps.filter q), pairsTotal_cons p ps, add_assoc, ih]
    · have h1 : (p :: ps).filter q = ps.filter q := by
        simp [List.filter_cons, hq]
      have h2 : ((p :: ps).filter fun x => !(q x)) = p :: ps.filter fun x => !(q x) := by
        simp [List.filter_cons, hq]
      rw [h1, h2, pairsTotal_cons p (ps.filter fun x => !(q x)), pairsTotal_cons p ps,
        add_left_comm, ih]

theorem groupSum_eq_pairsTotal (ps : List (RawVal × Option ℚ)) (k : RawVal) :
    groupSum ps k = pairsTotal (ps.filter fun p => p.1 = k) := rfl

theorem groupSums_partition :
    ∀ (ks : List RawVal) (ps : List (RawVal × Option ℚ)),
      ks.Nodup → RawVal.missing ∉ ks →
      (∀ p ∈ ps, p.1 = RawVal.missing ∨ p.1 ∈ ks) →
      (ks.map (groupSum ps)).sum
        = pairsTotal (ps.filter fun p => p.1 ≠ RawVal.missing) := by
  intro ks
  induction ks with
  | nil =>
    intro ps _ _ hcov
    have hnil : (ps.filter fun p => p.1 ≠ RawVal.missing) = [] := by
      rw [List.filter_eq_nil_iff]
      intro p hp
      rcases hcov p hp with h | h
      · simp [h]
      · exact absurd h (List.not_mem_nil p.1)
    rw [List.map_nil, List.sum_nil, hnil, pairsTotal_nil]
  | cons k ks ih =>
    intro ps hnd hm hcov
    have hkm : k ≠ RawVal.missing := fun h => hm (h ▸ List.mem_cons_self k ks)
    have hknks : k ∉ ks := (List.nodup_cons.1 hnd).1
    set ps' := ps.filter (fun p => p.1 ≠ k) with hps'
    have hsame : ∀ k' ∈ ks, groupSum ps k' = groupSum ps' k' := by
      intro k' hk'
      have hne : k' ≠ k := fun h => hknks (h ▸ hk')
      rw [groupSum_eq_pairsTotal, groupSum_eq_pairsTotal, hps', List.filter_filter]
      congr 1
      apply List.filter_congr
      intro p _
      by_cases h : p.1 = k'
      · simp [h, hne]
      · simp [h]
    have hmap : (ks.map (groupSum ps)).sum = (ks.map (groupSum ps')).sum := by
      congr 1
      exact List.map_congr_left hsame
    have hih : (ks.map (groupSum ps')).sum
        = pairsTotal (ps'.filter fun p => p.1 ≠ RawVal.missing) := by
      apply ih ps' (List.nodup_cons.1 hnd).2 (fun h => hm (List.mem_cons_of_mem k h))
      intro p hp
      have hpps : p ∈ ps := List.mem_of_mem_filter hp
      have hpk : p.1 ≠ k := by
        have := List.of_mem_filter hp
        simpa using this
      rcases hcov p hpps with h | h
      · exact Or.inl h
      · rcases List.mem_cons.1 h with h | h
        · exact absurd h hpk
        · exact Or.inr h
    have hsplit := pairsTotal_filter_split (fun p => p.1 = k)
      (ps.filter fun p => p.1 ≠ RawVal.missing)
    have h1 : ((ps.filter fun p => p.1 ≠ RawVal.missing).filter fun p => p.1 = k)
        = ps.filter fun p => p.1 = k := by
      rw [List.filter_filter]
      apply List.filter_congr
      intro p _
      by_cases h : p.1 = k
      · simp [h, hkm]
      · simp [h]
    have h2 : ((ps.filter fun p => p.1 ≠ RawVal.missing).filter
          fun p => !(p.1 = k : Bool))
        = ps'.filter fun p => p.1 ≠ RawVal.missing := by
      rw [List.filter_filter, hps', List.filter_filter]
      apply List.filter_congr
      intro p _
      by_cases h : p.1 = k <;> by_cases h2 : p.1 = RawVal.missing <;> simp [h, h2]
    rw [List.map_cons, List.sum_cons, hmap, hih, ← hsplit, h1, h2,
      groupSum_eq_pairsTotal]

/-! ### Row-level views of the aggregation -/

theorem map_snd_aggregate (t : Table) (dim val : String) :
    (aggregate t dim val).map Prod.snd
      = (groupKeys (selectPairs t dim val)).map (groupSum (selectPairs t dim val)) := by
  simp [aggregate, List.map_map]

theorem map_fst_aggregate (t : Table) (dim val : String) :
    (aggregate t dim val).map Prod.fst = groupKeys (selectPairs t dim val) := by
  simp [aggregate, List.map_map, Function.comp_def]

theorem mem_map_fst_selectPairs {t : Table} {dim val : String} {k : RawVal} :
    k ∈ (selectPairs t dim val).map Prod.fst
      ↔ ∃ r ∈ t.rows, getCell r (colIdx t dim) = k := by
  simp [selectPairs, List.map_map, Function.comp_def]

theorem groupSum_selectPairs (t : Table) (dim val : String) (k : RawVal) :
    groupSum (selectPairs t dim val) k
      = sumCoerced ((t.rows.filter fun r => getCell r (colIdx t dim) = k).map
          fun r => safeNumericCell (getCell r (colIdx t val))) := by
  rw [groupSum, selectPairs, List.filter_map]
  simp [Function.comp_def, List.map_map]

theorem pairsTotal_presentDim (t : Table) (dim val : String) :
    pairsTotal ((selectPairs t dim val).filter fun p => p.1 ≠ RawVal.missing)
      = presentDimTotal t dim val := by
  rw [pairsTotal, selectPairs, List.filter_map]
  simp [presentDimTotal, Function.comp_def, List.map_map]

theorem aggregate_total (t : Table) (dim val : String) :
    ((aggregate t dim val).map Prod.snd).sum = presentDimTotal t dim val := by
  rw [map_snd_aggregate]
  rw [groupSums_partition (groupKeys (selectPairs t dim val)) (selectPairs t dim val)
    (nodup_groupKeys _)
    (fun h => (mem_groupKeys.1 h).1 rfl)
    ?_]
  · exact pairsTotal_presentDim t dim val
  · intro p hp
    by_cases h : p.1 = RawVal.missing
    · exact Or.inl h
    · exact Or.inr (mem_groupKeys.2 ⟨h, List.mem_map.2 ⟨p, hp, rfl⟩⟩)

theorem sumCoerced_eq_zero_of_all_none :
    ∀ (l : List (Option ℚ)), (∀ o ∈ l, o = none) → sumCoerced l = 0 := by
  intro l h
  induction l with
  | nil => rfl
  | cons o l ih =>
    have ho : o = none := h o (List.mem_cons_self o l)
    subst ho
    exact ih fun o ho => h o (List.mem_cons_of_mem _ ho)

theorem firstDedupAux_eq_nil {seen l : List RawVal} :
    firstDedupAux seen l = [] ↔ ∀ x ∈ l, x ∈ seen := by
  induction l generalizing seen with
  | nil => simp [firstDedupAux]
  | cons a l ih =>
    by_cases ha : a ∈ seen
    · simp only [firstDedupAux, if_pos ha, ih]
      constructor
      · intro h x hx
        rcases List.mem_cons.1 hx with rfl | hx
        · exact ha
        · exact h x hx
      · intro h x hx
        exact h x (List.mem_cons_of_mem a hx)
    · simp only [firstDedupAux, if_neg ha]
      constructor
      · intro h
        exact absurd h (List.cons_ne_nil a _)
      · intro h
        exact absurd (h a (List.mem_cons_self a l)) ha

theorem firstDedup_eq_nil {l : List RawVal} :
    firstDedup l = [] ↔ l = [] := by
  rw [firstDedup, firstDedupAux_eq_nil]
  simp [List.eq_nil_iff_forall_not_mem]

/-! ### Claims about aggregation totals and keys -/

/-- C1.  The claim as stated is false on the code: a coercible measure
value in a row whose dimension cell is the missing marker is excluded
from every group (pandas `groupby` drops NaN keys), so the sum of
per-group sums can fall short of the sum of all coercible measure
values.  Concretely, with one row carrying a missing dimension and
measure text "5", the group total is 0 while the coercible total is 5. -/
theorem conservation_fails_on_missing_dim :
    ((aggregate exampleMissingDim "district" "count").map Prod.snd).sum = 0
    ∧ specCoercibleTotal exampleMissingDim "count" = 5
    ∧ ((aggregate exampleMissingDim "district" "count").map Prod.snd).sum
        ≠ specCoercibleTotal exampleMissingDim "count" :=
  ⟨by with_unfolding_all decide, by with_unfolding_all decide,
   by with_unfolding_all decide⟩

/-- C1 (amended).  The sum of per-group sums equals the sum of the
coercible measure values over the rows whose dimension cell is present;
when no dimension cell is missing this is the sum of all coercible
measure values in the table (conservation). -/
theorem groupTotal_conserves_present_rows (t : Table) (dim val : String)
    (hd : dim ∈ t.header) (hv : val ∈ t.header) (hne : dim ≠ val) :
    ((aggregate t dim val).map Prod.snd).sum = presentDimTotal t dim val
    ∧ ((∀ r ∈ t.rows, getCell r (colIdx t dim) ≠ RawVal.missing) →
        ((aggregate t dim val).map Prod.snd).sum = specCoercibleTotal t val) := by
  refine ⟨aggregate_total t dim val, fun hall => ?_⟩
  have hfil : (t.rows.filter fun r => getCell r (colIdx t dim) ≠ RawVal.missing)
      = t.rows :=
    List.filter_eq_self.2 fun r hr => by simpa using hall r hr
  rw [aggregate_total t dim val, presentDimTotal, hfil]
  rfl

/-- Evaluation of the conservation theorem on a concrete table. -/
theorem groupTotal_conserves_witness :
    ("district" ∈ exampleUniform.header ∧ "count" ∈ exampleUniform.header)
    ∧ ((aggregate exampleUniform "district" "count").map Prod.snd).sum
        = presentDimTotal exampleUniform "district" "count" :=
  ⟨⟨by decide, by decide⟩,
   (groupTotal_conserves_present_rows exampleUniform "district" "count"
     (by decide) (by decide) (by decide)).1⟩

/-- C4.  The aggregation result has exactly one entry per distinct
dimension value present in the table (the missing marker is not a value
and rows carrying it are dropped by the grouping), and each entry's sum
ranges over exactly that key's rows, with missing or uncoercible
measure cells contributing nothing. -/
theorem aggregate_one_entry_per_key (t : Table) (dim val : String)
    (hd : dim ∈ t.header) (hv : val ∈ t.header) (hne : dim ≠ val) :
    ((aggregate t dim val).map Prod.fst).Nodup
    ∧ (∀ k : RawVal, (∃ s, (k, s) ∈ aggregate t dim val)
        ↔ k ≠ RawVal.missing ∧ ∃ r ∈ t.rows, getCell r (colIdx t dim) = k)
    ∧ (∀ k s, (k, s) ∈ aggregate t dim val →
        s = sumCoerced ((t.rows.filter fun r => getCell r (colIdx t dim) = k).map
          fun r => safeNumericCell (getCell r (colIdx t val)))) := by
  refine ⟨?_, ?_, ?_⟩
  · rw [map_fst_aggregate]
    exact nodup_groupKeys _
  · intro k
    constructor
    · rintro ⟨s, hs⟩
      rcases List.mem_map.1 hs with ⟨a, ha, hak⟩
      have hk : a = k := congrArg Prod.fst hak
      subst hk
      have := mem_groupKeys.1 ha
      exact ⟨this.1, mem_map_fst_selectPairs.1 this.2⟩
    · rintro ⟨hk, r, hr, hcell⟩
      have hmem : k ∈ groupKeys (selectPairs t dim val) :=
        mem_groupKeys.2 ⟨hk, mem_map_fst_selectPairs.2 ⟨r, hr, hcell⟩⟩
      exact ⟨groupSum (selectPairs t dim val) k,
        List.mem_map.2 ⟨k, hmem, rfl⟩⟩
  · intro k s hs
    rcases List.mem_map.1 hs with ⟨a, _, hak⟩
    have hk : a = k := congrArg Prod.fst hak
    have hsum : groupSum (selectPairs t dim val) a = s := congrArg Prod.snd hak
    subst hk
    rw [← hsum, groupSum_selectPairs]

/-- Evaluation of the one-entry-per-key theorem on a concrete table. -/
theorem aggregate_one_entry_per_key_witness :
    aggregate exampleOutlier "district" "count" = outlierAgg
    ∧ ((aggregate exampleOutlier "district" "count").map Prod.fst).Nodup :=
  ⟨by with_unfolding_all decide,
   (aggregate_one_entry_per_key exampleOutlier "district" "count"
     (by decide) (by decide) (by decide)).1⟩

/-- C3.  The claim as stated is false on the code: when the measure
column has zero coercible values, pandas still produces one group per
present dimension key, each with sum 0 (`sum` of an all-NaN group is 0
under the default `min_count=0`), so the result is not empty and the
no-numeric-data notice is not shown.  Concretely, a one-row table with
dimension "A" and uncoercible measure "x" reports the insight
[("A", 0)]. -/
theorem aggregate_no_numeric_counterexample :
    exampleNoNumeric.rows.length = 1
    ∧ (exampleNoNumeric.rows.all fun r =>
        (safeNumericCell (getCell r (colIdx exampleNoNumeric "count"))).isNone) = true
    ∧ insightOutcome exampleNoNumeric "district" "count"
        = Except.ok (Outcome.insight [(RawVal.str "A", 0)]) :=
  ⟨by decide, by decide, by with_unfolding_all decide⟩

/-- C3 (amended).  When the measure column has zero coercible values,
every group in the result has sum 0; the result is empty, and reported
as the no-numeric-data notice, exactly when every row's dimension cell
is also missing. -/
theorem aggregate_no_numeric_sums_zero (t : Table) (dim val : String)
    (hd : dim ∈ t.header) (hv : val ∈ t.header) (hne : dim ≠ val)
    (hnone : ∀ r ∈ t.rows, safeNumericCell (getCell r (colIdx t val)) = none) :
    (∀ e ∈ aggregate t dim val, e.2 = 0)
    ∧ (aggregate t dim val = [] ↔ ∀ r ∈ t.rows, getCell r (colIdx t dim) = RawVal.missing)
    ∧ (insightOutcome t dim val = Except.ok Outcome.noNumericData
        ↔ ∀ r ∈ t.rows, getCell r (colIdx t dim) = RawVal.missing) := by
  have hempty : aggregate t dim val = []
      ↔ ∀ r ∈ t.rows, getCell r (colIdx t dim) = RawVal.missing := by
    rw [aggregate, List.map_eq_nil_iff, groupKeys, firstDedup_eq_nil,
      List.filter_eq_nil_iff]
    constructor
    · intro h r hr
      have := h (getCell r (colIdx t dim))
        (List.mem_map.2 ⟨(getCell r (colIdx t dim),
          safeNumericCell (getCell r (colIdx t val))),
          List.mem_map.2 ⟨r, hr, rfl⟩, rfl⟩)
      simpa using this
    · intro h k hk
      rcases List.mem_map.1 hk with ⟨p, hp, rfl⟩
      rcases List.mem_map.1 hp with ⟨r, hr, rfl⟩
      simpa using h r hr
  refine ⟨?_, hempty, ?_⟩
  · intro e he
    rcases List.mem_map.1 he with ⟨k, _, rfl⟩
    show groupSum (selectPairs t dim val) k = 0
    rw [groupSum_selectPairs]
    apply sumCoerced_eq_zero_of_all_none
    intro o ho
    rcases List.mem_map.1 ho with ⟨r, hr, rfl⟩
    exact hnone r (List.mem_of_mem_filter hr)
  · rw [insightOutcome, aiInsight, if_pos ⟨hd, hv⟩]
    simp only [Except.map]
    constructor
    · intro h
      by_cases hag : aggregate t dim val = []
      · exact hempty.1 hag
      · rw [if_neg hag] at h
        exact absurd (Except.ok.inj h) (by simp)
    · intro h
      rw [if_pos (hempty.2 h)]

/-- Evaluation of the no-numeric-data theorem on a concrete table. -/
theorem aggregate_no_numeric_sums_zero_witness :
    aggregate exampleNoNumeric "district" "count" = [(RawVal.str "A", 0)]
    ∧ ∀ e ∈ aggregate exampleNoNumeric "district" "count", e.2 = 0 :=
  ⟨by with_unfolding_all decide,
   (aggregate_no_numeric_sums_zero exampleNoNumeric "district" "count"
     (by decide) (by decide) (by decide) (by decide)).1⟩

/-- C8.  Requesting a dimension or measure column that is not in the
table's header fails with the unknown-column error (the pandas KeyError
of the column selection), not a silent empty or incorrect result. -/
theorem unknown_column_error (t : Table) (dim val : String)
    (h : dim ∉ t.header ∨ val ∉ t.header) :
    insightOutcome t dim val = Except.error AggError.unknownColumn := by
  have hno : ¬(dim ∈ t.header ∧ val ∈ t.header) := by
    rcases h with h | h
    · exact fun hc => h hc.1
    · exact fun hc => h hc.2
  rw [insightOutcome, aiInsight, if_neg hno]
  rfl

/-- Evaluation of the unknown-column theorem on a concrete table. -/
theorem unknown_column_error_witness :
    ("ghost" ∉ exampleUniform.header ∨ "count" ∉ exampleUniform.header)
    ∧ insightOutcome exampleUniform "ghost" "count"
        = Except.error AggError.unknownColumn :=
  ⟨Or.inl (by decide),
   unknown_column_error exampleUniform "ghost" "count" (Or.inl (by decide))⟩

/-- C9.  A table with zero rows aggregates to the empty group sequence,
with no error raised.  As for the other aggregation theorems, the
dimension and measure columns must be distinct: selecting the same
column twice raises in the program (even on zero rows) and is outside
the model. -/
theorem empty_table_empty_groups (t : Table) (dim val : String)
    (h : t.rows = []) (hd : dim ∈ t.header) (hv : val ∈ t.header)
    (hne : dim ≠ val) :
    aiInsight t dim val = Except.ok [] := by
  rw [aiInsight, if_pos ⟨hd, hv⟩]
  simp [aggregate, selectPairs, groupKeys, firstDedup, firstDedupAux, h]

/-- Evaluation of the empty-table theorem on a concrete table. -/
theorem empty_table_empty_groups_witness :
    exampleEmpty.rows = []
    ∧ aiInsight exampleEmpty "district" "count" = Except.ok [] :=
  ⟨rfl, empty_table_empty_groups exampleEmpty "district" "count" rfl
    (by decide) (by decide) (by decide)⟩

/-! ### Variance and z-score lemmas -/

theorem sq_sum_nonneg (m : ℚ) :
    ∀ (l : List ℚ), 0 ≤ (l.map fun x => (x - m) ^ 2).sum := by
  intro l
  induction l with
  | nil => simp
  | cons a l ih =>
    simp only [List.map_cons, List.sum_cons]
    have := sq_nonneg (a - m)
    linarith

theorem sq_sum_eq_zero {m : ℚ} :
    ∀ {l : List ℚ}, (l.map fun x => (x - m) ^ 2).sum = 0 → ∀ x ∈ l, x = m := by
  intro l
  induction l with
  | nil =>
    intro _ x hx
    exact absurd hx (List.not_mem_nil x)
  | cons a l ih =>
    intro h x hx
    simp only [List.map_cons, List.sum_cons] at h
    have h1 : 0 ≤ (a - m) ^ 2 := sq_nonneg _
    have h2 : 0 ≤ (l.map fun y => (y - m) ^ 2).sum := sq_sum_nonneg m l
    rcases List.mem_cons.1 hx with rfl | hx
    · have hz : (x - m) ^ 2 = 0 := by linarith
      have := (pow_eq_zero_iff two_ne_zero).1 hz
      linarith [sub_eq_zero.1 this]
    · exact ih (by linarith) x hx

theorem varQ_nonneg (l : List ℚ) : 0 ≤ varQ l := by
  rw [varQ]
  apply div_nonneg (sq_sum_nonneg _ l)
  exact_mod_cast Nat.zero_le _

theorem eq_mean_of_varQ_zero {l : List ℚ} (h : varQ l = 0) {x : ℚ}
    (hx : x ∈ l) : x = meanQ l := by
  rw [varQ, div_eq_zero_iff] at h
  rcases h with h | h
  · exact sq_sum_eq_zero h x hx
  · have hlen : l.length = 0 := by exact_mod_cast h
    rw [List.length_eq_zero] at hlen
    subst hlen
    exact absurd hx (List.not_mem_nil x)

theorem stdR_eq_zero_iff (l : List ℚ) : stdR l = 0 ↔ varQ l = 0 := by
  rw [stdR]
  constructor
  · intro h
    have h0 : ((varQ l : ℚ) : ℝ) = 0 :=
      (Real.sqrt_eq_zero (by exact_mod_cast varQ_nonneg l)).1 h
    exact_mod_cast h0
  · intro h
    rw [h]
    push_cast
    exact Real.sqrt_zero

/-- C2.  When the population standard deviation of the group sums is 0,
the z-score divisor is replaced by 1 and every deviation is 0, so the
z-score of every group is exactly 0 — no NaN and no division by zero. -/
theorem zscore_zero_when_std_zero (t : Table) (dim val : String)
    (g : List (RawVal × ℚ)) (hg : aiInsight t dim val = Except.ok g)
    (hstd : stdR (aggSums g) = 0) :
    ∀ e ∈ g, entryZ g e = 0 := by
  intro e he
  have hvar : varQ (aggSums g) = 0 := (stdR_eq_zero_iff _).1 hstd
  have hmem : e.2 ∈ aggSums g := List.mem_map.2 ⟨e, he, rfl⟩
  have hmean : e.2 = meanQ (aggSums g) := eq_mean_of_varQ_zero hvar hmem
  rw [entryZ, zScore, if_pos hstd, hmean]
  simp

/-- Evaluation of the zero-variance z-score theorem on the uniform
table with groups A, B, C all summing to 10. -/
theorem zscore_zero_when_std_zero_witness :
    aiInsight exampleUniform "district" "count" = Except.ok uniformAgg
    ∧ stdR (aggSums uniformAgg) = 0
    ∧ entryZ uniformAgg (RawVal.str "A", 10) = 0 := by
  have hg : aiInsight exampleUniform "district" "count" = Except.ok uniformAgg := by
    with_unfolding_all decide
  have hvar : varQ (aggSums uniformAgg) = 0 := by with_unfolding_all decide
  have hstd : stdR (aggSums uniformAgg) = 0 := by
    simp only [stdR, hvar]
    push_cast
    exact Real.sqrt_zero
  exact ⟨hg, hstd, zscore_zero_when_std_zero exampleUniform "district" "count"
    uniformAgg hg hstd (RawVal.str "A", 10) (by decide)⟩

/-! ### Lemmas about the numeric parser -/

theorem dropWhile_eq_nil_of_all {α : Type} (p : α → Bool) :
    ∀ (l : List α), (∀ c ∈ l, p c = true) → l.dropWhile p = [] := by
  intro l
  induction l with
  | nil => intro _; rfl
  | cons a l ih =>
    intro h
    rw [List.dropWhile_cons, if_pos (h a (List.mem_cons_self a l))]
    exact ih fun c hc => h c (List.mem_cons_of_mem a hc)

theorem dropWhile_eq_self_of_head {α : Type} (p : α → Bool) (l : List α)
    (h : ∀ c ∈ l, p c = false) : l.dropWhile p = l := by
  cases l with
  | nil => rfl
  | cons a l =>
    rw [List.dropWhile_cons,
      if_neg (by rw [h a (List.mem_cons_self a l)]; simp)]

theorem takeWhile_eq_self_of_all {α : Type} (p : α → Bool) :
    ∀ (l : List α), (∀ c ∈ l, p c = true) → l.takeWhile p = l := by
  intro l
  induction l with
  | nil => intro _; rfl
  | cons a l ih =>
    intro h
    rw [List.takeWhile_cons, if_pos (h a (List.mem_cons_self a l))]
    rw [ih fun c hc => h c (List.mem_cons_of_mem a hc)]

theorem mem_dropWhile_of_not {α : Type} (p : α → Bool) :
    ∀ (l : List α) (c : α), c ∈ l → p c = false → c ∈ l.dropWhile p := by
  intro l
  induction l with
  | nil =>
    intro c hc _
    exact absurd hc (List.not_mem_nil c)
  | cons a l ih =>
    intro c hc hp
    rw [List.dropWhile_cons]
    by_cases ha : p a = true
    · rw [if_pos ha]
      rcases List.mem_cons.1 hc with rfl | hc2
      · rw [hp] at ha
        exact absurd ha (by simp)
      · exact ih c hc2 hp
    · rw [if_neg ha]
      exact hc

theorem mem_trimChars_of_not_space {l : List Char} {c : Char} (hc : c ∈ l)
    (hp : isSpaceCh c = false) : c ∈ trimChars l := by
  rw [trimChars, List.mem_reverse]
  apply mem_dropWhile_of_not _ _ _ _ hp
  rw [List.mem_reverse]
  exact mem_dropWhile_of_not _ _ _ hc hp

theorem not_space_of_digit {c : Char} (h : c.isDigit = true) :
    isSpaceCh c = false := by
  rcases hb : isSpaceCh c with _ | _
  · rfl
  · exfalso
    simp only [isSpaceCh, Bool.or_eq_true, decide_eq_true_eq] at hb
    rcases hb with ((((rfl | rfl) | rfl) | rfl) | rfl) | rfl <;>
      exact absurd h (by decide)

theorem eq_iff_false_of_digit {c d : Char} (hc : c.isDigit = true)
    (hd : d.isDigit = false) : c = d ↔ False := by
  constructor
  · rintro rfl
    rw [hc] at hd
    exact absurd hd (by simp)
  · exact False.elim

theorem trimChars_of_all_digits {l : List Char}
    (h : ∀ c ∈ l, c.isDigit = true) : trimChars l = l := by
  have hns : ∀ c ∈ l, isSpaceCh c = false :=
    fun c hc => not_space_of_digit (h c hc)
  rw [trimChars, dropWhile_eq_self_of_head _ l hns,
    dropWhile_eq_self_of_head _ l.reverse
      (fun c hc => hns c (List.mem_reverse.1 hc)),
    List.reverse_reverse]

theorem isNanCore_eq_false_of_digits {l : List Char}
    (h : ∀ c ∈ l, c.isDigit = true) : isNanCore l = false := by
  rcases l with _ | ⟨c1, _ | ⟨c2, _ | ⟨c3, _ | ⟨c4, l⟩⟩⟩⟩ <;>
    simp only [isNanCore]
  have h1 := h c1 (by simp)
  simp [eq_iff_false_of_digit h1 (by decide : Char.isDigit 'n' = false),
    eq_iff_false_of_digit h1 (by decide : Char.isDigit 'N' = false)]

theorem parseNumChars_all_digits {l : List Char}
    (hall : ∀ c ∈ l, c.isDigit = true) (hne : l ≠ []) :
    parseNumChars l = some ((digitsVal l : ℚ)) := by
  rw [parseNumChars]
  simp only [trimChars_of_all_digits hall,
    isNanCore_eq_false_of_digits hall]
  rw [if_neg (show ¬(false = true) by simp)]
  rcases l with _ | ⟨c, r⟩
  · exact absurd rfl hne
  have hcd : c.isDigit = true := hall c (by simp)
  rw [parseSigned]
  have hplus : ¬((c :: r).head? = some '+') := by
    simp only [List.head?_cons, Option.some.injEq]
    exact fun hh => (eq_iff_false_of_digit hcd (by decide)).1 hh
  have hminus : ¬((c :: r).head? = some '-') := by
    simp only [List.head?_cons, Option.some.injEq]
    exact fun hh => (eq_iff_false_of_digit hcd (by decide)).1 hh
  rw [if_neg hplus, if_neg hminus, parseMantissa,
    takeWhile_eq_self_of_all _ _ hall, dropWhile_eq_nil_of_all _ _ hall,
    parseAfterInt]
  rw [if_neg (show ¬(([] : List Char).head? = some '.') by simp)]
  rw [if_neg (show ¬((c :: r).isEmpty = true) by simp [List.isEmpty_cons])]
  rw [parseExpPart]
  rw [if_pos (show (([] : List Char).isEmpty = true) from rfl)]
  rw [one_mul]

/-! ### Claims about numeric coercion -/

/-- C6.  Numeric coercion sends every blank or whitespace-only value,
every textual NaN-equivalent, and every value that fails numeric
parsing after comma stripping to the missing value; it is a total
function and never raises. -/
theorem coercion_blank_ws_nan_to_none (s : String)
    (h : isBlankOrWs s = true ∨ isNanText s = true
      ∨ parseNumeric (stripCommas s) = none) :
    safeNumericCell (RawVal.str s) = none := by
  show parseNumeric (stripCommas s) = none
  rcases h with h | h | h
  · rw [isBlankOrWs, List.all_eq_true] at h
    have hnc : (stripCommas s).toList = s.toList := by
      show s.toList.filter (fun c => c ≠ ',') = s.toList
      apply List.filter_eq_self.2
      intro c hc
      have := h c hc
      simp only [ne_eq, decide_eq_true_eq]
      intro hcc
      subst hcc
      exact absurd this (by decide)
    rw [parseNumeric, hnc, parseNumChars]
    have htrim : trimChars s.toList = [] := by
      rw [trimChars, dropWhile_eq_nil_of_all _ _ h]
      rfl
    rw [htrim]
    rfl
  · rw [isNanText] at h
    have hnocomma : (',' : Char) ∉ s.toList := by
      intro hmem
      have hmem2 : (',' : Char) ∈ trimChars s.toList :=
        mem_trimChars_of_not_space hmem (by decide)
      rcases htl : trimChars s.toList with _ | ⟨c1, _ | ⟨c2, _ | ⟨c3, _ | ⟨c4, l⟩⟩⟩⟩ <;>
        rw [htl] at h hmem2 <;> simp only [isNanCore] at h
      · exact absurd h (by simp)
      · exact absurd h (by simp)
      · exact absurd h (by simp)
      · simp only [Bool.and_eq_true, Bool.or_eq_true, decide_eq_true_eq] at h
        rcases List.mem_cons.1 hmem2 with rfl | hm
        · rcases h.1.1 with h' | h' <;> exact absurd h' (by decide)
        rcases List.mem_cons.1 hm with rfl | hm2
        · rcases h.1.2 with h' | h' <;> exact absurd h' (by decide)
        rcases List.mem_cons.1 hm2 with rfl | hm3
        · rcases h.2 with h' | h' <;> exact absurd h' (by decide)
        · exact absurd hm3 (List.not_mem_nil _)
      · exact absurd h (by simp)
    have hnc : (stripCommas s).toList = s.toList := by
      show s.toList.filter (fun c => c ≠ ',') = s.toList
      apply List.filter_eq_self.2
      intro c hc
      simp only [ne_eq, decide_eq_true_eq]
      intro hcc
      subst hcc
      exact hnocomma hc
    rw [parseNumeric, hnc, parseNumChars, if_pos h]
  · exact h

/-- Evaluation of the blank/NaN coercion theorem on concrete inputs. -/
theorem coercion_blank_ws_nan_witness :
    isBlankOrWs " " = true ∧ safeNumericCell (RawVal.str " ") = none :=
  ⟨by decide, coercion_blank_ws_nan_to_none " " (Or.inl (by decide))⟩

/-- C7.  A numeric-like string of digits with comma thousands
separators coerces to the value of its digit sequence: the commas are
stripped before parsing. -/
theorem coercion_strips_thousands_separators (s : String)
    (hall : ∀ c ∈ s.toList, c.isDigit = true ∨ c = ',')
    (hne : s.toList.filter Char.isDigit ≠ []) :
    safeNumericCell (RawVal.str s)
      = some ((digitsVal (s.toList.filter Char.isDigit) : ℚ)) := by
  show parseNumeric (stripCommas s) = _
  have hfil : (stripCommas s).toList = s.toList.filter Char.isDigit := by
    show s.toList.filter (fun c => c ≠ ',') = s.toList.filter Char.isDigit
    apply List.filter_congr
    intro c hc
    rcases hall c hc with h | rfl
    · simp [h, eq_iff_false_of_digit h (by decide : Char.isDigit ',' = false)]
    · simp
  rw [parseNumeric, hfil]
  exact parseNumChars_all_digits
    (fun c hc => (List.mem_filter.1 hc).2) hne

/-- Evaluation of the thousands-separator theorem on "12,345". -/
theorem coercion_strips_thousands_witness :
    safeNumericCell (RawVal.str "12,345") = some 12345 := by
  have h := coercion_strips_thousands_separators "12,345" (by decide) (by decide)
  have hd : digitsVal ("12,345".toList.filter Char.isDigit) = 12345 := by decide
  rw [hd] at h
  rwa [Nat.cast_ofNat] at h

/-- C10.  Comma stripping removes every comma, at any position: no
comma survives into the parse, and strings whose commas are not
thousands separators coerce to the number spelled by their digit
sequence, such as "1,2" to 12 and "12,34" to 1234. -/
theorem strip_commas_any_position :
    (∀ s : String, (stripCommas s).toList.count ',' = 0)
    ∧ safeNumericCell (RawVal.str "1,2") = some 12
    ∧ safeNumericCell (RawVal.str "12,34") = some 1234 := by
  refine ⟨?_, by with_unfolding_all decide, by with_unfolding_all decide⟩
  intro s
  rw [List.count_eq_zero]
  intro h
  have := List.of_mem_filter h
  simp at this

/-! ### Outlier flag bounds and the concrete outlier example -/

theorem stdR_pos_of_varQ_pos {l : List ℚ} (h : 0 < varQ l) : 0 < stdR l := by
  rw [stdR]
  apply Real.sqrt_pos.2
  exact_mod_cast h

theorem zscore_bounds_of_sq_le {l : List ℚ} {x : ℚ} (hvar : 0 < varQ l)
    (hsq : (x - meanQ l) ^ 2 ≤ 4 * varQ l) :
    ¬ zScore l x > 2 ∧ ¬ zScore l x < -2 := by
  have hs : 0 < stdR l := stdR_pos_of_varQ_pos hvar
  have hsne : stdR l ≠ 0 := ne_of_gt hs
  have hs2 : stdR l ^ 2 = ((varQ l : ℚ) : ℝ) :=
    Real.sq_sqrt (by exact_mod_cast le_of_lt hvar)
  set d : ℝ := ((x - meanQ l : ℚ) : ℝ) with hd
  have hd2 : d ^ 2 ≤ 4 * ((varQ l : ℚ) : ℝ) := by
    have hcast : (((x - meanQ l) ^ 2 : ℚ) : ℝ) ≤ ((4 * varQ l : ℚ) : ℝ) := by
      exact_mod_cast hsq
    push_cast at hcast
    rw [hd]
    push_cast
    linarith
  have hub : d ≤ 2 * stdR l := by
    nlinarith [hs, hs2, hd2, sq_nonneg (d - 2 * stdR l), sq_nonneg (d + 2 * stdR l)]
  have hlb : -(2 * stdR l) ≤ d := by
    nlinarith [hs, hs2, hd2, sq_nonneg (d - 2 * stdR l), sq_nonneg (d + 2 * stdR l)]
  rw [zScore, if_neg hsne]
  constructor
  · intro hgt
    rw [gt_iff_lt, lt_div_iff hs] at hgt
    linarith
  · intro hlt
    rw [div_lt_iff hs] at hlt
    linarith

/-- C5.  The claim's concrete example is false on the code: for groups
A, B, C at 1 and D at 100 the population standard deviation is about
42.87, so D's z-score is √3 ≈ 1.73, which does not exceed 2, and D is
not flagged as a high anomaly. -/
theorem outlier_example_not_flagged :
    aiInsight exampleOutlier "district" "count" = Except.ok outlierAgg
    ∧ (RawVal.str "D", (100 : ℚ)) ∈ outlierAgg
    ∧ ¬ isHighAnom outlierAgg (RawVal.str "D", 100) := by
  refine ⟨by with_unfolding_all decide, by decide, ?_⟩
  have hsums : aggSums outlierAgg = [(1 : ℚ), 1, 1, 100] := rfl
  have hmean : meanQ (aggSums outlierAgg) = 103 / 4 := by
    rw [hsums, meanQ]
    norm_num [List.sum_cons, List.sum_nil, List.length_cons]
  have hvar : varQ (aggSums outlierAgg) = 29403 / 16 := by
    rw [hsums, varQ, ← hsums, hmean, hsums]
    norm_num [List.map_cons, List.map_nil, List.sum_cons, List.sum_nil,
      List.length_cons]
  have hvpos : 0 < varQ (aggSums outlierAgg) := by
    rw [hvar]
    norm_num
  have hsq : ((100 : ℚ) - meanQ (aggSums outlierAgg)) ^ 2
      ≤ 4 * varQ (aggSums outlierAgg) := by
    rw [hmean, hvar]
    norm_num
  show ¬ zScore (aggSums outlierAgg) (100 : ℚ) > 2
  exact (zscore_bounds_of_sq_le hvpos hsq).1

/-- C5 (amended).  A group is flagged as a high anomaly exactly when
its z-score exceeds 2 and as a low anomaly exactly when its z-score is
below -2; for the groups A, B, C at 1 and D at 100 the z-score of D is
√3 < 2, so no group is flagged in either direction. -/
theorem outlier_example_flags :
    aiInsight exampleOutlier "district" "count" = Except.ok outlierAgg
    ∧ entryZ outlierAgg (RawVal.str "D", 100) = Real.sqrt 3
    ∧ (¬ isHighAnom outlierAgg (RawVal.str "A", 1)
        ∧ ¬ isLowAnom outlierAgg (RawVal.str "A", 1))
    ∧ (¬ isHighAnom outlierAgg (RawVal.str "B", 1)
        ∧ ¬ isLowAnom outlierAgg (RawVal.str "B", 1))
    ∧ (¬ isHighAnom outlierAgg (RawVal.str "C", 1)
        ∧ ¬ isLowAnom outlierAgg (RawVal.str "C", 1))
    ∧ (¬ isHighAnom outlierAgg (RawVal.str "D", 100)
        ∧ ¬ isLowAnom outlierAgg (RawVal.str "D", 100)) := by
  have hsums : aggSums outlierAgg = [(1 : ℚ), 1, 1, 100] := rfl
  have hmean : meanQ (aggSums outlierAgg) = 103 / 4 := by
    rw [hsums, meanQ]
    norm_num [List.sum_cons, List.sum_nil, List.length_cons]
  have hvar : varQ (aggSums outlierAgg) = 29403 / 16 := by
    rw [hsums, varQ, ← hsums, hmean, hsums]
    norm_num [List.map_cons, List.map_nil, List.sum_cons, List.sum_nil,
      List.length_cons]
  have hvpos : 0 < varQ (aggSums outlierAgg) := by
    rw [hvar]
    norm_num
  have hlow : ((1 : ℚ) - meanQ (aggSums outlierAgg)) ^ 2
      ≤ 4 * varQ (aggSums outlierAgg) := by
    rw [hmean, hvar]
    norm_num
  have hhigh : ((100 : ℚ) - meanQ (aggSums outlierAgg)) ^ 2
      ≤ 4 * varQ (aggSums outlierAgg) := by
    rw [hmean, hvar]
    norm_num
  have hA := zscore_bounds_of_sq_le hvpos hlow
  have hD := zscore_bounds_of_sq_le hvpos hhigh
  have hstd : stdR (aggSums outlierAgg) = (99 / 4 : ℝ) * Real.sqrt 3 := by
    rw [stdR, hvar]
    rw [show (((29403 / 16 : ℚ)) : ℝ) = ((99 / 4 : ℝ)) ^ 2 * 3 by
      push_cast
      norm_num]
    rw [Real.sqrt_mul (by positivity) 3, Real.sqrt_sq (by norm_num)]
  have hsne : stdR (aggSums outlierAgg) ≠ 0 := by
    rw [hstd]
    positivity
  have hz : entryZ outlierAgg (RawVal.str "D", 100) = Real.sqrt 3 := by
    show zScore (aggSums outlierAgg) (100 : ℚ) = Real.sqrt 3
    rw [zScore, if_neg hsne, hstd, hmean]
    rw [div_eq_iff (by positivity : ((99 : ℝ) / 4 * Real.sqrt 3) ≠ 0)]
    rw [show Real.sqrt 3 * ((99 / 4 : ℝ) * Real.sqrt 3)
        = (99 / 4 : ℝ) * (Real.sqrt 3 * Real.sqrt 3) by ring,
      Real.mul_self_sqrt (by norm_num)]
    push_cast
    norm_num
  exact ⟨by with_unfolding_all decide, hz, hA, hA, hA, hD⟩

end CivilSupplies
